import Mathlib

/-!
Verification development for the esdoc-plugin-jspm repository.

The definitions below are shallow embeddings of the JavaScript source:

* `Utils.sanitizePackageID`            (src/unnamed/part_007, `Utils.js`)
* `parseTopLevelDependencies`          (src/src/plugin.js, lines 692-738)
* `parsePackageJsonJSPMDependencies`   (src/src/plugin.js, lines 538-581)
* `onStart` option defaulting          (src/src/plugin.js, lines 90-106)
* `s_PARSE_ESDOC_PACKAGE`              (src/src/packageParser.js, lines 276-334)
* duplicate-package bookkeeping        (src/src/packageParser.js, lines 112-156)
* `s_FILTER_PACKAGE_MAP`               (src/src/packageParser.js, lines 257-266)
* HTML rule building                   (src/src/plugin.js 266-278 / part_007 264-277)
* `onComplete` search-index rewriting  (src/src/plugin.js 354-387 / part_007 432-459)
* `s_DEPTH_TRAVERSAL_NODES`            (src/src/packageGraphParser.js, lines 203-288)

JavaScript objects used as string-keyed dictionaries are embedded as
association lists that keep insertion order (the iteration order of a
`for (key in obj)` loop over non-numeric keys).  The path separator is
fixed to the posix value "/".
-/

/-! ### Utils.sanitizePackageID (part_007 lines 23-32)

`value.replace(/(\.|\/|:|@|\^|>=|>|<=|<|~|\*)/gi, '-')`: a global scan that
replaces each occurrence of one of the listed tokens by a dash.  At every
position the alternatives are tried in order, so the two-character tokens
`>=` and `<=` are consumed as a unit before the bare `>`/`<` alternatives. -/

def sanitizeSpecial (c : Char) : Bool :=
  c == '.' || c == '/' || c == ':' || c == '@' || c == '^' ||
  c == '>' || c == '<' || c == '~' || c == '*'

def sanitizeChars : List Char → List Char
  | [] => []
  | [c] => if sanitizeSpecial c then ['-'] else [c]
  | c :: d :: rest =>
      if (c == '>' || c == '<') && d == '=' then '-' :: sanitizeChars rest
      else if sanitizeSpecial c then '-' :: sanitizeChars (d :: rest)
      else c :: sanitizeChars (d :: rest)

def sanitizePackageID (s : String) : String :=
  String.mk (sanitizeChars s.data)

/-! ### parseTopLevelDependencies (plugin.js lines 692-738)

The JSPM `config.js` dependency map (`jspmConfig.map`) sends a full package
identity to an object mapping aliases to child package identities.  The JS
function first collects the unseen direct children of all top-level
packages into `childPackages`, then walks `childPackages` with an index
while appending unseen children, which grows the very list being walked.
The growing loop is embedded with explicit fuel; `parseTopLevelDependencies`
supplies enough fuel for the loop to run to completion (proved below). -/

def lookupDeps (m : List (String × List (String × String))) (k : String) :
    List (String × String) :=
  (List.lookup k m).getD []

/-- One `for (packageName in packageDependency)` body: push every dependency
value that has not been seen, and mark it seen (plugin.js lines 710-718). -/
def addDeps (deps : List (String × String)) (cp seen : List String) :
    List String × List String :=
  deps.foldl
    (fun p kv => if kv.2 ∈ p.2 then p else (p.1 ++ [kv.2], p.2 ++ [kv.2]))
    (cp, seen)

/-- The first loop over `topLevelPackages` (plugin.js lines 704-719). -/
def initialChildren (m : List (String × List (String × String)))
    (topLevelPackages : List String) : List String × List String :=
  topLevelPackages.foldl (fun p t => addDeps (lookupDeps m t) p.1 p.2) ([], [])

/-- The second, self-growing loop over `childPackages`
(plugin.js lines 722-735), with fuel counting remaining iterations. -/
def traverseLoop (m : List (String × List (String × String))) :
    Nat → List String → Nat → List String → Option (List String)
  | 0, cp, i, _ => if i < cp.length then none else some cp
  | fuel + 1, cp, i, seen =>
      if h : i < cp.length then
        let p := addDeps (lookupDeps m (cp.get ⟨i, h⟩)) cp seen
        traverseLoop m fuel p.1 (i + 1) p.2
      else some cp

/-- All dependency values occurring in the map, without duplicates; its
length bounds how many entries the traversal can ever append. -/
def allDepValues (m : List (String × List (String × String))) : List String :=
  (m.flatMap (fun kv => kv.2.map Prod.snd)).dedup

def parseTopLevelDependencies (m : List (String × List (String × String)))
    (topLevelPackages : List String) : Option (List String) :=
  let p := initialChildren m topLevelPackages
  traverseLoop m (p.1.length + (allDepValues m).length) p.1 0 p.2

/-- The cyclic dependency map of claim C1: A depends on B, B depends on A. -/
def cycleMap : List (String × List (String × String)) :=
  [("A", [("x", "B")]), ("B", [("y", "A")])]

/-! ### onStart option defaulting (plugin.js lines 90-106)

`option.parseDependencies = option.parseDependencies || true;` — a JS
logical-or whose left operand is the raw configured value (`none` models an
absent entry) and whose right operand is the default `true`. -/

def jsFalsyBool : Option Bool → Bool
  | none => true
  | some b => !b

def jsOrBool (a : Option Bool) (b : Bool) : Bool :=
  if jsFalsyBool a then b else a.getD b

def onStartParseDependencies (raw : Option Bool) : Bool :=
  jsOrBool raw true

/-- The `onHandleConfig` control flow around dependency expansion
(plugin.js lines 191-217): record names of the top-level packages are always
collected; names of child packages discovered by `parseTopLevelDependencies`
are appended exactly when the stored `option.parseDependencies` is truthy. -/
def onHandleConfigRecordNames (raw : Option Bool)
    (topNames childNames : List String) : List String :=
  topNames ++ (if onStartParseDependencies raw then childNames else [])

/-! ### parsePackageJsonJSPMDependencies (plugin.js lines 538-581)

`deps` models `packageObj.jspm.dependencies` (`none` when the manifest has
no `jspm` entry or it lacks `dependencies`); `jspmPackageMap` models the
optional predefined hash whose values start out `null` (`none`).  When the
hash is present the JS fills in, for every key, the declared specifier if
the manifest has one and otherwise logs a warning — the key itself is never
removed.  The second component collects the warned-about keys. -/

def parsePackageJsonJSPMDependencies
    (deps : Option (List (String × String)))
    (jspmPackageMap : Option (List (String × Option String)))
    (silent : Bool) :
    List (String × Option String) × List String :=
  match deps with
  | none => (jspmPackageMap.getD [], if silent then [] else ["jspm.dependencies"])
  | some ds =>
      match jspmPackageMap with
      | some m =>
          (m.map (fun kv =>
              match List.lookup kv.1 ds with
              | some v => (kv.1, some v)
              | none => kv),
           if silent then []
           else (m.filter (fun kv => (List.lookup kv.1 ds).isNone)).map Prod.fst)
      | none => (ds.map (fun kv => (kv.1, some kv.2)), [])

/-! ### s_PARSE_ESDOC_PACKAGE (packageParser.js lines 276-334)

The JSON documents that the candidate config files may parse to. -/

inductive Json where
  | jnull : Json
  | jbool : Bool → Json
  | jnum : Int → Json
  | jstr : String → Json
  | jarr : List Json → Json
  | jobj : List (String × Json) → Json

/-- The JS test comparing `typeof v` with the word object: true for
objects, arrays and null. -/
def jsTypeofObject : Json → Bool
  | Json.jnull => true
  | Json.jarr _ => true
  | Json.jobj _ => true
  | _ => false

/-- Member access `cfg.source` on an object or array (an array has no
`source` member, so it yields `undefined`, modelled as `none`). -/
def jsField (cfg : Json) (key : String) : Option Json :=
  match cfg with
  | Json.jobj fields => List.lookup key fields
  | _ => none

/-- Whether a loaded config declares a string-valued `source` member. -/
def hasStringSource (cfg : Json) : Bool :=
  match jsField cfg "source" with
  | some (Json.jstr _) => true
  | _ => false

/-- The `esdocSrcRoot.replace` call with the anchored pattern built from
`^\.` plus the separator: in the JS string literal `\.` denotes a plain
dot, which the regex engine reads as the any-character class, so the
pattern strips the first two characters whenever the second one is the
separator. -/
def stripLeadingAnySlash (s : String) : String :=
  match s.data with
  | _ :: '/' :: rest => String.mk rest
  | _ => s

/-- Input record handed to the additional parser: the package data the
surrounding `JSPMParser.parseNormalizedPackage` already produced. -/
structure PkgResultIn where
  packageName : String
  fullPath : String
  relativePath : String
deriving DecidableEq

/-- Outcome of `s_PARSE_ESDOC_PACKAGE`: returned `null` (skip), threw, or
returned the augmented result record. -/
inductive EsdocOutcome where
  | skipped : EsdocOutcome
  | thrown : EsdocOutcome
  | parsed : String → String → String → String → EsdocOutcome
deriving DecidableEq

/-- Embedding of `s_PARSE_ESDOC_PACKAGE`.  `loaded` lists, for the candidate config file
names in order, the JSON document each one parsed to (`none` when reading or
parsing failed); the loop keeps the first success.  `existsSync` is the
filesystem oracle for the final path check.  -/
def s_PARSE_ESDOC_PACKAGE (loaded : List (Option Json))
    (existsSync : String → Bool) (res : PkgResultIn) : EsdocOutcome :=
  match (loaded.filterMap id).head? with
  | none => EsdocOutcome.skipped
  | some cfg =>
      if jsTypeofObject cfg then
        match cfg with
        | Json.jnull => EsdocOutcome.thrown
        | _ =>
            match jsField cfg "source" with
            | some (Json.jstr src) =>
                let esdocSrcRoot := stripLeadingAnySlash src
                let relativePath := res.relativePath ++ "/" ++ esdocSrcRoot
                let fullPath := res.fullPath ++ "/" ++ esdocSrcRoot
                let normalizedPath := res.packageName ++ "/" ++ src
                if existsSync fullPath then
                  EsdocOutcome.parsed fullPath relativePath normalizedPath src
                else EsdocOutcome.thrown
            | _ => EsdocOutcome.thrown
      else EsdocOutcome.skipped

/-! ### Duplicate-package bookkeeping (packageParser.js lines 112-156)

For every non-null normalized package the parser warns when
`duplicateCheck` already holds a *different* relative path for the same
`packageName` (and `options.silent` is off), then unconditionally appends
the record to `normalizedData` and overwrites
`duplicateCheck[packageName]` with the newest relative path. -/

structure NormPkg where
  packageName : String
  relativePath : String
deriving DecidableEq

structure DupState where
  normalizedData : List NormPkg
  duplicateCheck : List (String × String)
  warnings : List (String × String)
deriving DecidableEq

/-- JS object assignment `obj[k] = v`: update the existing slot in place,
otherwise append a new one. -/
def assocSet (k v : String) : List (String × String) → List (String × String)
  | [] => [(k, v)]
  | (k', v') :: rest =>
      if k' = k then (k, v) :: rest else (k', v') :: assocSet k v rest

def recordNormalizedPackage (silent : Bool) (st : DupState) (pkg : NormPkg) :
    DupState :=
  let warn :=
    match List.lookup pkg.packageName st.duplicateCheck with
    | some prev => !silent && prev != pkg.relativePath
    | none => false
  { normalizedData := st.normalizedData ++ [pkg]
    duplicateCheck := assocSet pkg.packageName pkg.relativePath st.duplicateCheck
    warnings := st.warnings ++
      (if warn then [(pkg.packageName, pkg.relativePath)] else []) }

def recordNormalizedPackages (silent : Bool) (pkgs : List NormPkg) : DupState :=
  pkgs.foldl (recordNormalizedPackage silent) ⟨[], [], []⟩

/-! ### s_FILTER_PACKAGE_MAP (packageParser.js lines 257-266)

Map entries are either the initial `null` placeholder or a declared
specifier string; calling `value.startsWith` on a `null` value raises a JS
TypeError, modelled as `Except.error`. -/

inductive SpecVal where
  | vnull : SpecVal
  | vstr : String → SpecVal
deriving DecidableEq

def s_FILTER_PACKAGE_MAP :
    List (String × SpecVal) → Except Unit (List (String × SpecVal))
  | [] => Except.ok []
  | (_, SpecVal.vnull) :: _ => Except.error ()
  | (k, SpecVal.vstr s) :: rest =>
      match s_FILTER_PACKAGE_MAP rest with
      | Except.error e => Except.error e
      | Except.ok out =>
          Except.ok
            (if s.startsWith "npm:" || s.startsWith "github:" then
              (k, SpecVal.vstr s) :: out
            else out)

/-- JS object assignment for specifier maps. -/
def assocSetSpec (k : String) (v : SpecVal) :
    List (String × SpecVal) → List (String × SpecVal)
  | [] => [(k, v)]
  | (k', v') :: rest =>
      if k' = k then (k, v) :: rest else (k', v') :: assocSetSpec k v rest

/-- The `options.packages` array converted to an object literal with no mapped path
(packageParser.js lines 40-47): every requested name is bound to `null`. -/
def packagesToMap (packages : List String) : List (String × SpecVal) :=
  packages.foldl (fun m p => assocSetSpec p SpecVal.vnull m) []

/-- The packageParser steps bearing on claim C10: build the map from
`options.packages`, fill the declared specifiers in from the manifest only
when `options.parseDependencies` holds (`fill` stands for
`JSPMParser.getPackageJSPMDependencies`), then filter
(packageParser.js lines 40-47, 70-77 and 85). -/
def packageParserFilterStep (packages : List String) (parseDependencies : Bool)
    (fill : List (String × SpecVal) → List (String × SpecVal)) :
    Except Unit (List (String × SpecVal)) :=
  s_FILTER_PACKAGE_MAP
    (if parseDependencies then fill (packagesToMap packages)
     else packagesToMap packages)

/-! ### HTML substitution rules (plugin.js 266-278 / part_007 264-277)

Per normalized package record the loop pushes two rules into
`htmlReplace`: one whose pattern prefixes the relative path with the root
directory name, one for the bare relative path, both rewriting to the
normalized path behind the `>` boundary, with the parenthesised actual
package name glued in front when the record is an alias. -/

structure EsdocPkgRecord where
  relativePath : String
  normalizedPath : String
  actualPackageName : String
  isAlias : Bool
deriving DecidableEq

structure StrRule where
  fromPat : String
  toStr : String
deriving DecidableEq

/-- The alias annotation: a parenthesised actual package name followed by
a line break when the record is an alias, else the empty string. -/
def aliasMark (r : EsdocPkgRecord) : String :=
  if r.isAlias then "(" ++ r.actualPackageName ++ "):<br>" else ""

/-- The source loop pushing the rules record by record. -/
def buildHtmlReplace (rootDir sep : String) (recs : List EsdocPkgRecord) :
    List StrRule :=
  recs.foldl
    (fun acc r =>
      acc ++
        [⟨">" ++ rootDir ++ sep ++ r.relativePath,
          ">" ++ aliasMark r ++ r.normalizedPath⟩,
         ⟨">" ++ r.relativePath,
          ">" ++ aliasMark r ++ r.normalizedPath⟩])
    []

/-- The rule list exactly as the spec words it: two HTML rules per record,
one for the root-dir-prefixed form and one for the bare relative-path form,
both replacing the path after the `>` boundary with the normalized path,
alias-annotated when `isAlias` holds. -/
def htmlRulesSpec (rootDir sep : String) (recs : List EsdocPkgRecord) :
    List StrRule :=
  recs.flatMap
    (fun r =>
      [⟨">" ++ rootDir ++ sep ++ r.relativePath,
        ">" ++ aliasMark r ++ r.normalizedPath⟩,
       ⟨">" ++ r.relativePath,
        ">" ++ aliasMark r ++ r.normalizedPath⟩])

/-! ### onComplete search-index rewriting (plugin.js 354-387 / part_007 432-459)

`entry[2].replace(from, to)` is the JS string-pattern replace: it replaces
only the first occurrence.  Search-index entries are arrays; accessing
index 2 of an array of length two yields `undefined`, and calling
`.replace` on it raises a TypeError, modelled as `Except.error`. -/

def matchesAt (pat s : List Char) : Bool :=
  match pat, s with
  | [], _ => true
  | _ :: _, [] => false
  | p :: ps, c :: cs => p == c && matchesAt ps cs

def replaceFirstChars (pat rep : List Char) : List Char → List Char
  | [] => if matchesAt pat [] then rep else []
  | c :: cs =>
      if matchesAt pat (c :: cs) then rep ++ (c :: cs).drop pat.length
      else c :: replaceFirstChars pat rep cs

def replaceFirst (s pat rep : String) : String :=
  String.mk (replaceFirstChars pat.data rep.data s.data)

/-- The inner `for` over `searchReplace` applied to one string. -/
def applySearchReplace (rules : List (String × String)) (s : String) : String :=
  rules.foldl (fun acc r => replaceFirst acc r.1 r.2) s

/-- Processing of one search-index entry (the body of the outer loop):
entries shorter than two elements are skipped; otherwise each replacement
rule reads and rewrites `entry[2]`, which for a length-two entry is
`undefined` and raises as soon as there is at least one rule. -/
def onCompleteEntry (rules : List (String × String)) (entry : List String) :
    Except Unit (List String) :=
  if 2 ≤ entry.length then
    match rules with
    | [] => Except.ok entry
    | _ :: _ =>
        match entry.get? 2 with
        | none => Except.error ()
        | some s => Except.ok (entry.set 2 (applySearchReplace rules s))
  else Except.ok entry

/-- The whole rewrite pass over the parsed search index. -/
def onCompleteRewrite (rules : List (String × String))
    (json : List (List String)) : Except Unit (List (List String)) :=
  json.mapM (onCompleteEntry rules)

/-! ### s_DEPTH_TRAVERSAL_NODES (packageGraphParser.js lines 203-288)

Graph nodes carry the sanitized package id, the `minLevel` depth field, the
position `index` assigned at creation, and the full package identity used
to look children up in `childPackageMap`.  (The JS node also carries
`packageData`, `packageScope` and `fixed`, which the traversal logic never
branches on; only `packageData.fullPackage` is read, kept here as the
`fullPackage` field.)  The `packageNodeMap` ES6 Map is embedded as an
insertion-ordered association list holding the same node values as the
`packageNodes` array. -/

structure GraphNode where
  id : String
  minLevel : Nat
  index : Nat
  fullPackage : String
deriving DecidableEq

structure GraphLink where
  source : Nat
  target : Nat
  minLevel : Nat
deriving DecidableEq

structure TraversalState where
  nodes : List GraphNode
  nodeMap : List (String × GraphNode)
  links : List GraphLink
deriving DecidableEq

/-- The in-place mutation `existingNode.minLevel = newNode.minLevel` guarded
by `newNode.minLevel < existingNode.minLevel`, applied to every holder of
the aliased node object (identified by its unique id). -/
def updateMin (oid : String) (depth : Nat) (n : GraphNode) : GraphNode :=
  if n.id = oid ∧ depth < n.minLevel then { n with minLevel := depth } else n

/-- The body of the `for (key in childDepMap)` loop
(packageGraphParser.js lines 228-274). -/
def processChild (st : TraversalState) (nextLevel : List GraphNode)
    (depIndex depth : Nat) (fullPackage : String) :
    TraversalState × List GraphNode :=
  let objectID := sanitizePackageID fullPackage
  let index := st.nodes.length
  let newNode : GraphNode := ⟨objectID, depth, index, fullPackage⟩
  match List.lookup objectID st.nodeMap with
  | none =>
      ({ nodes := st.nodes ++ [newNode]
         nodeMap := st.nodeMap ++ [(objectID, newNode)]
         links := st.links ++ [⟨depIndex, index, depth⟩] },
       nextLevel ++ [newNode])
  | some existing =>
      ({ nodes := st.nodes.map (updateMin objectID depth)
         nodeMap := st.nodeMap.map (fun kv => (kv.1, updateMin objectID depth kv.2))
         links := st.links ++ [⟨depIndex, existing.index, depth⟩] },
       nextLevel)

/-- The body of the outer `for` over `packageDeps`
(packageGraphParser.js lines 210-275): skip the dep when
`childPackageMap` has no entry for its full package identity. -/
def processDep (childPackageMap : List (String × List (String × String)))
    (depth : Nat) (p : TraversalState × List GraphNode) (dep : GraphNode) :
    TraversalState × List GraphNode :=
  match List.lookup dep.fullPackage childPackageMap with
  | none => p
  | some childDepMap =>
      childDepMap.foldl (fun q kv => processChild q.1 q.2 dep.index depth kv.2) p

/-- The recursive traversal, with fuel bounding the recursion depth (the JS
recursion stops by itself once a wave adds no new node). -/
def s_DEPTH_TRAVERSAL_NODES
    (childPackageMap : List (String × List (String × String))) :
    Nat → List GraphNode → TraversalState → Nat → TraversalState
  | 0, _, st, _ => st
  | fuel + 1, packageDeps, st, depth =>
      let p := packageDeps.foldl (processDep childPackageMap depth) (st, [])
      if 0 < p.2.length then
        s_DEPTH_TRAVERSAL_NODES childPackageMap fuel p.2 p.1 (depth + 1)
      else p.1

/-- Well-formedness of a traversal state: the node map mirrors the node
array entry for entry, node ids are pairwise distinct, and every node's
stored `index` is its position in the array.  The initial states built by
`packageGraphParser` (lines 29-132) satisfy this: nodes are pushed onto the
array and the map together, guarded by `packageNodeMap.has`, with
`index = packageNodes.length` at push time. -/
def nodesWf (st : TraversalState) : Prop :=
  st.nodeMap = st.nodes.map (fun n => (n.id, n)) ∧
  (st.nodes.map GraphNode.id).Nodup ∧
  st.nodes.map GraphNode.index = List.range st.nodes.length

/-- The depths of every discovery path reaching the node stored at position
`idx`, as recorded by the links the traversal pushes: both branches of the
child loop push a link targeting the reached node's index and labelled with
the current depth. -/
def reachDepths (links : List GraphLink) (idx : Nat) : List Nat :=
  (links.filter (fun l => l.target == idx)).map GraphLink.minLevel

def findNode (nodes : List GraphNode) (oid : String) : Option GraphNode :=
  nodes.find? (fun n => n.id == oid)

/-- How a traversal step transforms a state: only new links are appended,
they all target live nodes, no node disappears, a surviving node keeps its
index and full package while its `minLevel` becomes the minimum of its old
value and the depths of all new discovery paths reaching it, and a fresh
node's `minLevel` is the minimum depth over its (non-empty) list of
discovery paths. -/
def MinTracks (st st' : TraversalState) : Prop :=
  st.nodes.length ≤ st'.nodes.length ∧
  ∃ newLinks : List GraphLink,
    st'.links = st.links ++ newLinks ∧
    (∀ l ∈ newLinks, l.target < st'.nodes.length) ∧
    (∀ n ∈ st.nodes, ∃ n' ∈ st'.nodes, n'.id = n.id) ∧
    (∀ n' ∈ st'.nodes,
      match findNode st.nodes n'.id with
      | some n =>
          n'.index = n.index ∧ n'.fullPackage = n.fullPackage ∧
          n'.minLevel = (reachDepths newLinks n.index).foldl Nat.min n.minLevel
      | none =>
          st.nodes.length ≤ n'.index ∧
          ∃ d ds, reachDepths newLinks n'.index = d :: ds ∧
            n'.minLevel = ds.foldl Nat.min d)

/-! ## Theorems -/

/-! ### Claim C7: sanitizePackageID is idempotent -/

theorem sanitizeChars_no_special (l : List Char) :
    ∀ c ∈ sanitizeChars l, sanitizeSpecial c = false := by
  induction l using sanitizeChars.induct with
  | case1 => intro c hc; simp [sanitizeChars] at hc
  | case2 c hs =>
      intro d hd
      rw [sanitizeChars, if_pos hs] at hd
      rcases List.mem_cons.mp hd with h | h
      · subst h; decide
      · simp at h
  | case3 c hs =>
      intro d hd
      rw [sanitizeChars, if_neg hs] at hd
      rcases List.mem_cons.mp hd with h | h
      · subst h; exact Bool.not_eq_true _ |>.mp hs
      · simp at h
  | case4 c d rest hif ih =>
      intro e he
      rw [sanitizeChars, if_pos hif] at he
      rcases List.mem_cons.mp he with h | h
      · subst h; decide
      · exact ih e h
  | case5 c d rest hif hs ih =>
      intro e he
      rw [sanitizeChars, if_neg hif, if_pos hs] at he
      rcases List.mem_cons.mp he with h | h
      · subst h; decide
      · exact ih e h
  | case6 c d rest hif hs ih =>
      intro e he
      rw [sanitizeChars, if_neg hif, if_neg hs] at he
      rcases List.mem_cons.mp he with h | h
      · subst h; exact Bool.not_eq_true _ |>.mp hs
      · exact ih e h

theorem sanitizeChars_clean (l : List Char)
    (h : ∀ c ∈ l, sanitizeSpecial c = false) : sanitizeChars l = l := by
  induction l using sanitizeChars.induct with
  | case1 => rfl
  | case2 c hs =>
      exact absurd (h c (List.mem_cons_self _ _)) (by simp [hs])
  | case3 c hs =>
      rw [sanitizeChars, if_neg hs]
  | case4 c d rest hif ih =>
      exfalso
      have hc : sanitizeSpecial c = false := h c (List.mem_cons_self _ _)
      rcases Bool.and_eq_true _ _ |>.mp hif with ⟨h1, _⟩
      revert hc h1; simp [sanitizeSpecial]; tauto
  | case5 c d rest hif hs ih =>
      exact absurd (h c (List.mem_cons_self _ _)) (by simp [hs])
  | case6 c d rest hif hs ih =>
      rw [sanitizeChars, if_neg hif, if_neg hs,
        ih (fun e he => h e (List.mem_cons_of_mem _ he))]

/-- Claim C7: for every input string, `sanitizePackageID` is idempotent —
sanitizing an already sanitized value changes nothing, because every
replaced token is gone from the output and `-` is never itself replaced. -/
theorem sanitizePackageID_idempotent (s : String) :
    sanitizePackageID (sanitizePackageID s) = sanitizePackageID s := by
  show String.mk (sanitizeChars (sanitizeChars s.data)) = _
  rw [sanitizeChars_clean _ (sanitizeChars_no_special s.data)]
  rfl

/-! ### Claim C2: `parseDependencies: false` still triggers expansion -/

/-- Claim C2 (code bug witness): the claim says a configured
`parseDependencies: false` must prevent dependency expansion, but `onStart`
stores `option.parseDependencies || true`, which evaluates to `true` for
`false`; `onHandleConfig` therefore still invokes the expansion and the
record set still gains the transitively discovered children. -/
theorem onStart_parseDependencies_false_coerced :
    onStartParseDependencies (some false) = true ∧
    onHandleConfigRecordNames (some false) ["top"] ["child"] = ["top", "child"] := by
  constructor
  · rfl
  · rfl

/-! ### Claim C8: two HTML rules per package record -/

theorem foldl_append_flatMap {α β : Type} (g : α → List β) (recs : List α) :
    ∀ init : List β,
      recs.foldl (fun acc r => acc ++ g r) init = init ++ recs.flatMap g := by
  induction recs with
  | nil => intro init; simp
  | cons r rest ih =>
      intro init
      rw [List.foldl_cons, ih, List.flatMap_cons, List.append_assoc]

/-- Claim C8: for every resolved package record the builder contributes
exactly two HTML rules — the root-dir-prefixed relative path after the `>`
boundary and the bare relative path after the `>` boundary — both rewriting
to `>` followed by the normalized path, alias-annotated exactly when
`isAlias` holds; the loop result equals the spec-worded rule list and has
twice as many rules as records. -/
theorem buildHtmlReplace_two_rules_per_record (rootDir sep : String)
    (recs : List EsdocPkgRecord) :
    buildHtmlReplace rootDir sep recs = htmlRulesSpec rootDir sep recs ∧
    (buildHtmlReplace rootDir sep recs).length = 2 * recs.length := by
  have h : buildHtmlReplace rootDir sep recs = htmlRulesSpec rootDir sep recs := by
    rw [buildHtmlReplace, htmlRulesSpec, foldl_append_flatMap, List.nil_append]
  refine ⟨h, ?_⟩
  rw [h, htmlRulesSpec, List.length_flatMap]
  clear h
  induction recs with
  | nil => rfl
  | cons r rest ih =>
      rw [List.map_cons, List.sum_cons, ih, List.length_cons]
      simp [Function.comp]
      omega

/-! ### Claim C3: missing string `source` throws, missing config skips -/

/-- Claim C3: when some candidate doc-config file of a managed package
loads (the code's own notion of a loaded config is a value of JS typeof
`object`) but it lacks a string-valued `source` member, the package parser
throws; when no candidate file loads at all, it skips the package by
returning null instead. -/
theorem s_PARSE_ESDOC_PACKAGE_source_error :
    (∀ (loaded : List (Option Json)) (existsSync : String → Bool)
       (res : PkgResultIn) (cfg : Json),
       (loaded.filterMap id).head? = some cfg →
       jsTypeofObject cfg = true →
       hasStringSource cfg = false →
       s_PARSE_ESDOC_PACKAGE loaded existsSync res = EsdocOutcome.thrown) ∧
    (∀ (loaded : List (Option Json)) (existsSync : String → Bool)
       (res : PkgResultIn),
       (loaded.filterMap id).head? = none →
       s_PARSE_ESDOC_PACKAGE loaded existsSync res = EsdocOutcome.skipped) := by
  constructor
  · intro loaded existsSync res cfg hload hobj hsrc
    rw [s_PARSE_ESDOC_PACKAGE, hload]
    cases cfg with
    | jnull => simp [jsTypeofObject]
    | jbool b => simp [jsTypeofObject] at hobj
    | jnum n => simp [jsTypeofObject] at hobj
    | jstr s => simp [jsTypeofObject] at hobj
    | jarr elems => simp [jsTypeofObject, jsField]
    | jobj fields =>
        rw [hasStringSource] at hsrc
        simp only [jsTypeofObject, if_true]
        cases hfield : jsField (Json.jobj fields) "source" with
        | none => simp [hfield]
        | some v =>
            cases v with
            | jstr s => rw [hfield] at hsrc; simp at hsrc
            | jnull => simp [hfield]
            | jbool b => simp [hfield]
            | jnum n => simp [hfield]
            | jarr elems => simp [hfield]
            | jobj fields2 => simp [hfield]
  · intro loaded existsSync res hload
    rw [s_PARSE_ESDOC_PACKAGE, hload]

/-- Witness for claim C3 at a concrete input: a config file that parses to
the empty JSON object throws, while a package where no config file parses
is skipped. -/
theorem s_PARSE_ESDOC_PACKAGE_source_error_witness :
    s_PARSE_ESDOC_PACKAGE [some (Json.jobj [])] (fun _ => true)
      ⟨"pkg", "/r/jspm_packages/pkg", "jspm_packages/pkg"⟩ =
      EsdocOutcome.thrown ∧
    s_PARSE_ESDOC_PACKAGE [none, none] (fun _ => true)
      ⟨"pkg", "/r/jspm_packages/pkg", "jspm_packages/pkg"⟩ =
      EsdocOutcome.skipped := by
  constructor
  · exact s_PARSE_ESDOC_PACKAGE_source_error.1 _ _ _ (Json.jobj []) rfl rfl rfl
  · exact s_PARSE_ESDOC_PACKAGE_source_error.2 _ _ _ rfl

/-! ### Claim C4: duplicate package resolutions -/

/-- Claim C4 (counterexample): after two resolutions with the same
`packageName` "P" but different relative paths "a" and "b", the record set
holds BOTH records — the claim's "the record set keeps the first resolution
for that packageName" fails, and the duplicate-check slot holds the newest
path "b", not the first-seen "a". -/
theorem recordNormalizedPackages_keeps_both :
    (recordNormalizedPackages false [⟨"P", "a"⟩, ⟨"P", "b"⟩]).normalizedData ≠
      [⟨"P", "a"⟩] ∧
    (⟨"P", "b"⟩ : NormPkg) ∈
      (recordNormalizedPackages false [⟨"P", "a"⟩, ⟨"P", "b"⟩]).normalizedData ∧
    List.lookup "P"
      (recordNormalizedPackages false [⟨"P", "a"⟩, ⟨"P", "b"⟩]).duplicateCheck =
      some "b" := by
  refine ⟨?_, ?_, ?_⟩ <;> decide

/-- Claim C4 (amended): when the same resulting packageName is resolved
twice with different relative paths and `silent` is false, the second
resolution logs a duplicate-path warning and nothing throws, but the record
set keeps BOTH resolutions (the second is appended too) and the
duplicate-check map is overwritten with the latest relative path, so the
most recent resolution — not the first — is what later duplicates are
compared against. -/
theorem recordNormalizedPackages_duplicate_warns (p q : NormPkg)
    (hname : q.packageName = p.packageName)
    (hpath : q.relativePath ≠ p.relativePath) :
    (recordNormalizedPackages false [p, q]).warnings =
      [(q.packageName, q.relativePath)] ∧
    (recordNormalizedPackages false [p, q]).normalizedData = [p, q] ∧
    List.lookup p.packageName
      (recordNormalizedPackages false [p, q]).duplicateCheck =
      some q.relativePath := by
  have hupd : recordNormalizedPackage false ⟨[], [], []⟩ p =
      ⟨[p], [(p.packageName, p.relativePath)], []⟩ := by
    simp [recordNormalizedPackage, List.lookup, assocSet]
  have hbeq : (p.relativePath != q.relativePath) = true := by
    simpa using (Ne.symm hpath)
  refine ⟨?_, ?_, ?_⟩ <;>
    simp [recordNormalizedPackages, hupd, recordNormalizedPackage, List.lookup,
      hname, assocSet, hbeq]

/-- Witness for claim C4 at concrete records. -/
theorem recordNormalizedPackages_duplicate_warns_witness :
    (recordNormalizedPackages false [⟨"Q", "a"⟩, ⟨"Q", "c"⟩]).warnings =
      [("Q", "c")] ∧
    (recordNormalizedPackages false [⟨"Q", "a"⟩, ⟨"Q", "c"⟩]).normalizedData =
      [⟨"Q", "a"⟩, ⟨"Q", "c"⟩] ∧
    List.lookup "Q"
      (recordNormalizedPackages false [⟨"Q", "a"⟩, ⟨"Q", "c"⟩]).duplicateCheck =
      some "c" :=
  recordNormalizedPackages_duplicate_warns ⟨"Q", "a"⟩ ⟨"Q", "c"⟩ rfl (by decide)

/-! ### Claim C5: explicit package list against the manifest -/

/-- Claim C5 (counterexample): with manifest declarations `{a: "npm:a@1"}`
and explicit list `[a, b]`, the returned mapping still contains the
requested key `b` (bound to its initial null), so it does NOT contain
exactly the requested keys present in the manifest (which would be `[a]`);
the absent key is warned about but not dropped. -/
theorem parsePackageJsonJSPMDependencies_keeps_absent_key :
    (parsePackageJsonJSPMDependencies (some [("a", "npm:a@1")])
        (some [("a", none), ("b", none)]) false).1.map Prod.fst = ["a", "b"] ∧
    (parsePackageJsonJSPMDependencies (some [("a", "npm:a@1")])
        (some [("a", none), ("b", none)]) false).1.map Prod.fst ≠ ["a"] ∧
    (parsePackageJsonJSPMDependencies (some [("a", "npm:a@1")])
        (some [("a", none), ("b", none)]) false).2 = ["b"] := by
  refine ⟨?_, ?_, ?_⟩ <;> decide

/-- Claim C5 (amended): with a manifest dependencies namespace and an
explicit package map, the returned mapping keeps ALL requested keys in
order: a key declared in the manifest is bound to its declared specifier, a
requested key absent from the manifest keeps its initial null value and is
reported in the warning list exactly when `silent` is off; nothing aborts
(the function is total). -/
theorem parsePackageJsonJSPMDependencies_explicit
    (ds : List (String × String)) (m : List (String × Option String))
    (silent : Bool) :
    (parsePackageJsonJSPMDependencies (some ds) (some m) silent).1.map Prod.fst =
      m.map Prod.fst ∧
    (∀ kv : String × Option String, kv ∈ m → (List.lookup kv.1 ds).isNone →
      kv ∈ (parsePackageJsonJSPMDependencies (some ds) (some m) silent).1) ∧
    (∀ (kv : String × Option String) (v : String), kv ∈ m →
      List.lookup kv.1 ds = some v →
      (kv.1, some v) ∈ (parsePackageJsonJSPMDependencies (some ds) (some m) silent).1) ∧
    (parsePackageJsonJSPMDependencies (some ds) (some m) silent).2 =
      (if silent then []
       else (m.filter (fun kv => (List.lookup kv.1 ds).isNone)).map Prod.fst) := by
  refine ⟨?_, ?_, ?_, rfl⟩
  · rw [parsePackageJsonJSPMDependencies]
    rw [List.map_map]
    apply List.map_congr_left
    intro kv _
    cases h : List.lookup kv.1 ds <;> simp [h]
  · intro kv hmem hnone
    rw [parsePackageJsonJSPMDependencies]
    refine List.mem_map.mpr ⟨kv, hmem, ?_⟩
    rw [Option.isNone_iff_eq_none] at hnone
    simp [hnone]
  · intro kv v hmem hv
    rw [parsePackageJsonJSPMDependencies]
    refine List.mem_map.mpr ⟨kv, hmem, ?_⟩
    simp [hv]

/-- Witness for claim C5 at a concrete input: requested key "b" is absent
from the manifest yet survives in the result with its null value. -/
theorem parsePackageJsonJSPMDependencies_explicit_witness :
    ("b", (none : Option String)) ∈
      (parsePackageJsonJSPMDependencies (some [("a", "npm:a@1")])
        (some [("a", none), ("b", none)]) false).1 :=
  (parsePackageJsonJSPMDependencies_explicit [("a", "npm:a@1")]
      [("a", none), ("b", none)] false).2.1
    ("b", none) (by decide) (by decide)

/-! ### Claim C10: the package-map filter and null specifier values -/

theorem assocSetSpec_all_null (k : String) (l : List (String × SpecVal))
    (h : ∀ kv ∈ l, kv.2 = SpecVal.vnull) :
    ∀ kv ∈ assocSetSpec k SpecVal.vnull l, kv.2 = SpecVal.vnull := by
  induction l with
  | nil => intro kv hkv; rcases List.mem_singleton.mp hkv with rfl; rfl
  | cons hd rest ih =>
      intro kv hkv
      rw [assocSetSpec] at hkv
      by_cases hk : hd.1 = k
      · rw [if_pos hk] at hkv
        rcases List.mem_cons.mp hkv with rfl | hkv
        · rfl
        · exact h kv (List.mem_cons_of_mem _ hkv)
      · rw [if_neg hk] at hkv
        rcases List.mem_cons.mp hkv with rfl | hkv
        · exact h _ (List.mem_cons_self _ _)
        · exact ih (fun kv2 hkv2 => h kv2 (List.mem_cons_of_mem _ hkv2)) kv hkv

theorem assocSetSpec_ne_nil (k : String) (v : SpecVal)
    (l : List (String × SpecVal)) : assocSetSpec k v l ≠ [] := by
  cases l with
  | nil => simp [assocSetSpec]
  | cons hd rest =>
      rw [assocSetSpec]
      by_cases hk : hd.1 = k
      · rw [if_pos hk]; simp
      · rw [if_neg hk]; simp

theorem packagesToMap_all_null (packages : List String) :
    ∀ kv ∈ packagesToMap packages, kv.2 = SpecVal.vnull := by
  rw [packagesToMap]
  suffices h : ∀ (ps : List String) (m : List (String × SpecVal)),
      (∀ kv ∈ m, kv.2 = SpecVal.vnull) →
      ∀ kv ∈ ps.foldl (fun m p => assocSetSpec p SpecVal.vnull m) m,
        kv.2 = SpecVal.vnull by
    exact h packages [] (by simp)
  intro ps
  induction ps with
  | nil => intro m hm kv hkv; exact hm kv hkv
  | cons p rest ih =>
      intro m hm kv hkv
      exact ih _ (assocSetSpec_all_null p m hm) kv hkv

theorem packagesToMap_ne_nil (packages : List String) (h : packages ≠ []) :
    packagesToMap packages ≠ [] := by
  rw [packagesToMap]
  cases packages with
  | nil => exact absurd rfl h
  | cons p rest =>
      rw [List.foldl_cons]
      suffices hpres : ∀ (ps : List String) (m : List (String × SpecVal)),
          m ≠ [] →
          ps.foldl (fun m p => assocSetSpec p SpecVal.vnull m) m ≠ [] by
        exact hpres rest _ (assocSetSpec_ne_nil _ _ _)
      intro ps
      induction ps with
      | nil => intro m hm; exact hm
      | cons q qs ih =>
          intro m _
          rw [List.foldl_cons]
          exact ih _ (assocSetSpec_ne_nil _ _ _)

theorem s_FILTER_PACKAGE_MAP_null_error (m : List (String × SpecVal))
    (h : ∃ kv ∈ m, kv.2 = SpecVal.vnull) :
    s_FILTER_PACKAGE_MAP m = Except.error () := by
  induction m with
  | nil => rcases h with ⟨kv, hkv, _⟩; simp at hkv
  | cons hd rest ih =>
      rcases hd with ⟨k, v⟩
      cases v with
      | vnull => rfl
      | vstr s =>
          rcases h with ⟨kv, hkv, hnull⟩
          rcases List.mem_cons.mp hkv with rfl | hkv
          · simp at hnull
          · rw [s_FILTER_PACKAGE_MAP, ih ⟨kv, hkv, hnull⟩]

theorem s_FILTER_PACKAGE_MAP_strings (m : List (String × String)) :
    s_FILTER_PACKAGE_MAP (m.map (fun kv => (kv.1, SpecVal.vstr kv.2))) =
      Except.ok
        ((m.filter (fun kv =>
            kv.2.startsWith "npm:" || kv.2.startsWith "github:")).map
          (fun kv => (kv.1, SpecVal.vstr kv.2))) := by
  induction m with
  | nil => rfl
  | cons hd rest ih =>
      rw [List.map_cons, s_FILTER_PACKAGE_MAP, ih]
      by_cases hp : (hd.2.startsWith "npm:" || hd.2.startsWith "github:") = true
      · simp [hp, List.filter_cons]
      · simp only [Bool.not_eq_true] at hp
        simp [hp, List.filter_cons]

/-- Claim C10: the package-map filter keeps exactly the entries whose
specifier value is a string with an `npm:` or `github:` qualifier and
requires every value to be a string; when `options.packages` is non-empty
and `options.parseDependencies` is false the map entries keep their initial
null values and the filtering step raises a TypeError instead of producing
a record set. -/
theorem packageParserFilterStep_typeerror (packages : List String)
    (fill : List (String × SpecVal) → List (String × SpecVal))
    (hne : packages ≠ []) :
    (∀ kv ∈ packagesToMap packages, kv.2 = SpecVal.vnull) ∧
    packagesToMap packages ≠ [] ∧
    packageParserFilterStep packages false fill = Except.error () ∧
    (∀ m : List (String × SpecVal), (∃ kv ∈ m, kv.2 = SpecVal.vnull) →
      s_FILTER_PACKAGE_MAP m = Except.error ()) ∧
    (∀ m : List (String × String),
      s_FILTER_PACKAGE_MAP (m.map (fun kv => (kv.1, SpecVal.vstr kv.2))) =
        Except.ok
          ((m.filter (fun kv =>
              kv.2.startsWith "npm:" || kv.2.startsWith "github:")).map
            (fun kv => (kv.1, SpecVal.vstr kv.2)))) := by
  refine ⟨packagesToMap_all_null packages, packagesToMap_ne_nil packages hne,
    ?_, s_FILTER_PACKAGE_MAP_null_error, s_FILTER_PACKAGE_MAP_strings⟩
  rw [packageParserFilterStep, if_neg (by simp)]
  apply s_FILTER_PACKAGE_MAP_null_error
  cases hm : packagesToMap packages with
  | nil => exact absurd hm (packagesToMap_ne_nil packages hne)
  | cons kv rest =>
      exact ⟨kv, by simp,
        packagesToMap_all_null packages kv (by rw [hm]; exact List.mem_cons_self _ _)⟩

/-- Witness for claim C10 at a concrete input: one requested package,
dependency parsing disabled — the filter step raises. -/
theorem packageParserFilterStep_typeerror_witness :
    packageParserFilterStep ["backbone-es6"] false id = Except.error () :=
  (packageParserFilterStep_typeerror ["backbone-es6"] id (by decide)).2.2.1

/-! ### Claim C9: onComplete and short search-index entries -/

/-- Claim C9 (counterexample): with an empty replacement table, a
search index consisting of one entry of length exactly two is rewritten
successfully — `onComplete` does not throw, because the inner loop over
`searchReplace` never executes and index 2 is never read.  This refutes the
claim's "for any search-index array containing an entry of length exactly
2, onComplete throws a TypeError". -/
theorem onCompleteRewrite_empty_rules_ok :
    onCompleteRewrite [] [["a", "b"]] = Except.ok [["a", "b"]] := rfl

theorem set_get?_self {α : Type} (l : List α) :
    ∀ (n : Nat) (a : α), l.get? n = some a → l.set n a = l := by
  induction l with
  | nil => intro n a h; simp at h
  | cons hd tl ih =>
      intro n a h
      cases n with
      | zero => simp at h; simp [h]
      | succ k =>
          simp at h
          simp [ih k a (by rw [List.get?_eq_getElem?]; exact h)]

theorem onCompleteEntry_short (rules : List (String × String))
    (e : List String) (h : e.length ≤ 1) :
    onCompleteEntry rules e = Except.ok e := by
  rw [onCompleteEntry.eq_def, if_neg (by omega)]

theorem onCompleteEntry_read2 (rules : List (String × String))
    (e : List String) (s : String) (h : e.get? 2 = some s) :
    onCompleteEntry rules e = Except.ok (e.set 2 (applySearchReplace rules s)) := by
  have hlen : 2 ≤ e.length := by
    by_contra hc
    rw [List.get?_eq_none.mpr (by omega)] at h
    exact Option.noConfusion h
  rw [onCompleteEntry.eq_def, if_pos hlen]
  cases rules with
  | nil =>
      rw [show applySearchReplace [] s = s from rfl, set_get?_self e 2 s h]
  | cons r rest => rw [h]

theorem onCompleteEntry_len2_error (rules : List (String × String))
    (e : List String) (hr : rules ≠ []) (h : e.length = 2) :
    onCompleteEntry rules e = Except.error () := by
  rw [onCompleteEntry.eq_def, if_pos (by omega)]
  cases rules with
  | nil => exact absurd rfl hr
  | cons r rest => rw [List.get?_eq_none.mpr (by omega)]

theorem onCompleteEntry_ok_of_ne2 (rules : List (String × String))
    (e : List String) (h : e.length ≠ 2) :
    ∃ e', onCompleteEntry rules e = Except.ok e' := by
  by_cases hlen : e.length ≤ 1
  · exact ⟨e, onCompleteEntry_short rules e hlen⟩
  · have h3 : 2 < e.length := by omega
    obtain ⟨s, hs⟩ : ∃ s, e.get? 2 = some s := ⟨_, List.get?_eq_get h3⟩
    exact ⟨_, onCompleteEntry_read2 rules e s hs⟩

/-- Claim C9 (amended): `onComplete` skips entries of length 0 or 1
untouched, and for an entry with a present index 2 it rewrites exactly that
element; an entry of length exactly two makes the whole rewrite throw a
TypeError exactly when the search-replacement table is non-empty (with an
empty table nothing is read and the pass completes). -/
theorem onCompleteRewrite_spec (rules : List (String × String))
    (json : List (List String)) :
    (rules ≠ [] → (∃ e ∈ json, e.length = 2) →
      onCompleteRewrite rules json = Except.error ()) ∧
    (∀ e : List String, e.length ≤ 1 →
      onCompleteEntry rules e = Except.ok e) ∧
    (∀ (e : List String) (s : String), e.get? 2 = some s →
      onCompleteEntry rules e =
        Except.ok (e.set 2 (applySearchReplace rules s)) ∧
      ∀ j : Nat, j ≠ 2 →
        (e.set 2 (applySearchReplace rules s)).get? j = e.get? j) := by
  refine ⟨?_, onCompleteEntry_short rules, ?_⟩
  · intro hr hex
    induction json with
    | nil => rcases hex with ⟨e, he, _⟩; simp at he
    | cons hd tl ih =>
        rw [onCompleteRewrite, List.mapM_cons]
        by_cases hhd : hd.length = 2
        · rw [onCompleteEntry_len2_error rules hd hr hhd]
          rfl
        · obtain ⟨e', he'⟩ := onCompleteEntry_ok_of_ne2 rules hd hhd
          rcases hex with ⟨e, he, hlen⟩
          rcases List.mem_cons.mp he with rfl | he
          · exact absurd hlen hhd
          · have hrec := ih ⟨e, he, hlen⟩
            rw [onCompleteRewrite] at hrec
            rw [he']
            simp only [hrec]
            rfl
  · intro e s hs
    refine ⟨onCompleteEntry_read2 rules e s hs, fun j hj => ?_⟩
    rw [List.get?_eq_getElem?, List.get?_eq_getElem?]
    exact List.getElem?_set_ne (fun h => hj h.symm)

/-- Witness for claim C9: with a non-empty rule table, one length-two entry
makes the rewrite throw. -/
theorem onCompleteRewrite_spec_witness :
    onCompleteRewrite [("x", "y")] [["a", "b"]] = Except.error () :=
  (onCompleteRewrite_spec [("x", "y")] [["a", "b"]]).1 (by decide)
    ⟨["a", "b"], by decide⟩

/-! ### Claim C1: dependency expansion — termination, uniqueness, cycles -/

theorem lookup_mem {β : Type} (k : String) (v : β) (l : List (String × β))
    (h : List.lookup k l = some v) : (k, v) ∈ l := by
  induction l with
  | nil => simp [List.lookup] at h
  | cons hd tl ih =>
      rw [List.lookup] at h
      rcases hbeq : (k == hd.1) with _ | _
      · rw [hbeq] at h
        exact List.mem_cons_of_mem _ (ih h)
      · rw [hbeq] at h
        have hk : k = hd.1 := by simpa using hbeq
        have hv : hd.2 = v := by simpa using h
        rw [hk, ← hv]
        exact List.mem_cons_self _ _

theorem mem_allDepValues (m : List (String × List (String × String)))
    (k v : String) (h : v ∈ (lookupDeps m k).map Prod.snd) :
    v ∈ allDepValues m := by
  rw [lookupDeps] at h
  cases hl : List.lookup k m with
  | none => rw [hl] at h; simp at h
  | some d =>
      rw [hl] at h
      rw [allDepValues, List.mem_dedup]
      exact List.mem_flatMap.mpr ⟨(k, d), lookup_mem k d m hl, h⟩

theorem addDeps_spec (deps : List (String × String)) :
    ∀ cp seen : List String,
      ∃ nw : List String,
        (addDeps deps cp seen).1 = cp ++ nw ∧
        (addDeps deps cp seen).2 = seen ++ nw ∧
        nw.Nodup ∧ (∀ v ∈ nw, v ∉ seen) ∧
        (∀ v ∈ nw, v ∈ deps.map Prod.snd) := by
  induction deps with
  | nil =>
      intro cp seen
      exact ⟨[], by simp [addDeps], by simp [addDeps], List.nodup_nil,
        by simp, by simp⟩
  | cons kv rest ih =>
      intro cp seen
      rw [addDeps, List.foldl_cons]
      by_cases hc : kv.2 ∈ seen
      · rw [if_pos hc]
        obtain ⟨nw, h1, h2, h3, h4, h5⟩ := ih cp seen
        rw [addDeps] at h1 h2
        refine ⟨nw, h1, h2, h3, h4, fun v hv => ?_⟩
        rw [List.map_cons]
        exact List.mem_cons_of_mem _ (h5 v hv)
      · rw [if_neg hc]
        obtain ⟨nw, h1, h2, h3, h4, h5⟩ := ih (cp ++ [kv.2]) (seen ++ [kv.2])
        rw [addDeps] at h1 h2
        refine ⟨kv.2 :: nw, ?_, ?_, ?_, ?_, ?_⟩
        · rw [h1, List.append_assoc]
          rfl
        · rw [h2, List.append_assoc]
          rfl
        · refine List.nodup_cons.mpr ⟨fun hmem => ?_, h3⟩
          exact h4 kv.2 hmem (by simp)
        · intro v hv
          rcases List.mem_cons.mp hv with rfl | hv
          · exact hc
          · intro hvs
            exact h4 v hv (List.mem_append_left _ hvs)
        · intro v hv
          rw [List.map_cons]
          rcases List.mem_cons.mp hv with rfl | hv
          · exact List.mem_cons_self _ _
          · exact List.mem_cons_of_mem _ (h5 v hv)

theorem traverseLoop_isSome (m : List (String × List (String × String))) :
    ∀ (fuel : Nat) (cp : List String) (i : Nat) (seen : List String),
      cp.length - i + ((allDepValues m).toFinset \ seen.toFinset).card ≤ fuel →
      (traverseLoop m fuel cp i seen).isSome = true := by
  intro fuel
  induction fuel with
  | zero =>
      intro cp i seen hfuel
      rw [traverseLoop, if_neg (by omega)]
      rfl
  | succ fuel ih =>
      intro cp i seen hfuel
      rw [traverseLoop]
      by_cases h : i < cp.length
      · rw [dif_pos h]
        show (traverseLoop m fuel
          (addDeps (lookupDeps m (cp.get ⟨i, h⟩)) cp seen).1 (i + 1)
          (addDeps (lookupDeps m (cp.get ⟨i, h⟩)) cp seen).2).isSome = true
        obtain ⟨nw, h1, h2, h3, h4, h5⟩ :=
          addDeps_spec (lookupDeps m (cp.get ⟨i, h⟩)) cp seen
        apply ih
        rw [h1, h2]
        have hsub : nw.toFinset ⊆
            (allDepValues m).toFinset \ seen.toFinset := by
          intro v hv
          rw [List.mem_toFinset] at hv
          rw [Finset.mem_sdiff, List.mem_toFinset, List.mem_toFinset]
          exact ⟨mem_allDepValues m _ v (h5 v hv), h4 v hv⟩
        have hset : (allDepValues m).toFinset \ (seen ++ nw).toFinset =
            ((allDepValues m).toFinset \ seen.toFinset) \ nw.toFinset := by
          ext x
          simp only [Finset.mem_sdiff, List.toFinset_append, Finset.mem_union]
          tauto
        have hcard : (((allDepValues m).toFinset \ seen.toFinset) \
            nw.toFinset).card =
            ((allDepValues m).toFinset \ seen.toFinset).card -
              nw.toFinset.card := Finset.card_sdiff hsub
        have hle : nw.toFinset.card ≤
            ((allDepValues m).toFinset \ seen.toFinset).card :=
          Finset.card_le_card hsub
        have hnwcard : nw.toFinset.card = nw.length :=
          List.toFinset_card_of_nodup h3
        rw [hset, hcard, hnwcard, List.length_append]
        rw [hnwcard] at hle
        omega
      · rw [dif_neg h]
        rfl

theorem traverseLoop_nodup (m : List (String × List (String × String))) :
    ∀ (fuel : Nat) (cp : List String) (i : Nat) (seen : List String),
      cp.Nodup → (∀ v ∈ cp, v ∈ seen) →
      ∀ out, traverseLoop m fuel cp i seen = some out → out.Nodup := by
  intro fuel
  induction fuel with
  | zero =>
      intro cp i seen hnd _ out hout
      rw [traverseLoop] at hout
      by_cases h : i < cp.length
      · rw [if_pos h] at hout
        exact Option.noConfusion hout
      · rw [if_neg h] at hout
        rw [← Option.some_inj.mp hout]
        exact hnd
  | succ fuel ih =>
      intro cp i seen hnd hsub out hout
      rw [traverseLoop] at hout
      by_cases h : i < cp.length
      · rw [dif_pos h] at hout
        obtain ⟨nw, h1, h2, h3, h4, h5⟩ :=
          addDeps_spec (lookupDeps m (cp.get ⟨i, h⟩)) cp seen
        refine ih _ (i + 1) _ ?_ ?_ out (by exact hout)
        · rw [h1]
          refine List.Nodup.append hnd h3 ?_
          intro v hvc hvn
          exact h4 v hvn (hsub v hvc)
        · intro v hv
          rw [h1] at hv
          rw [h2]
          rcases List.mem_append.mp hv with hv | hv
          · exact List.mem_append_left _ (hsub v hv)
          · exact List.mem_append_right _ hv
      · rw [dif_neg h] at hout
        rw [← Option.some_inj.mp hout]
        exact hnd

theorem initialChildren_inv (m : List (String × List (String × String)))
    (topLevelPackages : List String) :
    (initialChildren m topLevelPackages).1.Nodup ∧
    ∀ v ∈ (initialChildren m topLevelPackages).1,
      v ∈ (initialChildren m topLevelPackages).2 := by
  rw [initialChildren]
  suffices h : ∀ (ts : List String) (cp seen : List String),
      cp.Nodup → (∀ v ∈ cp, v ∈ seen) →
      (ts.foldl (fun p t => addDeps (lookupDeps m t) p.1 p.2) (cp, seen)).1.Nodup ∧
      ∀ v ∈ (ts.foldl (fun p t => addDeps (lookupDeps m t) p.1 p.2) (cp, seen)).1,
        v ∈ (ts.foldl (fun p t => addDeps (lookupDeps m t) p.1 p.2) (cp, seen)).2 by
    exact h topLevelPackages [] [] List.nodup_nil (by simp)
  intro ts
  induction ts with
  | nil => intro cp seen hnd hsub; exact ⟨hnd, hsub⟩
  | cons t rest ihr =>
      intro cp seen hnd hsub
      rw [List.foldl_cons]
      obtain ⟨nw, h1, h2, h3, h4, h5⟩ := addDeps_spec (lookupDeps m t) cp seen
      have hnd' : (addDeps (lookupDeps m t) cp seen).1.Nodup := by
        rw [h1]
        refine List.Nodup.append hnd h3 ?_
        intro v hvc hvn
        exact h4 v hvn (hsub v hvc)
      have hsub' : ∀ v ∈ (addDeps (lookupDeps m t) cp seen).1,
          v ∈ (addDeps (lookupDeps m t) cp seen).2 := by
        intro v hv
        rw [h1] at hv
        rw [h2]
        rcases List.mem_append.mp hv with hv | hv
        · exact List.mem_append_left _ (hsub v hv)
        · exact List.mem_append_right _ hv
      exact ihr _ _ hnd' hsub'

/-- Claim C1 (amended): for every finite dependency map — cyclic ones
included — and every top-level package list, `parseTopLevelDependencies`
terminates (the fuelled walk finishes within its fuel, never returning
`none`) and returns each package identity at most once.  It does NOT
exclude the top-level names themselves: see the counterexample below. -/
theorem parseTopLevelDependencies_terminates_nodup
    (m : List (String × List (String × String)))
    (topLevelPackages : List String) :
    ∃ out, parseTopLevelDependencies m topLevelPackages = some out ∧
      out.Nodup := by
  rw [parseTopLevelDependencies]
  have hsome := traverseLoop_isSome m
    ((initialChildren m topLevelPackages).1.length + (allDepValues m).length)
    (initialChildren m topLevelPackages).1 0
    (initialChildren m topLevelPackages).2
    (by
      have hA : ((allDepValues m).toFinset \
          (initialChildren m topLevelPackages).2.toFinset).card ≤
          (allDepValues m).toFinset.card :=
        Finset.card_le_card (Finset.sdiff_subset)
      have hB : (allDepValues m).toFinset.card ≤ (allDepValues m).length :=
        List.toFinset_card_le _
      omega)
  obtain ⟨out, hout⟩ := Option.isSome_iff_exists.mp hsome
  obtain ⟨hnd, hsub⟩ := initialChildren_inv m topLevelPackages
  exact ⟨out, hout, traverseLoop_nodup m _ _ 0 _ hnd hsub out hout⟩

/-- Claim C1 (counterexample): with the cyclic map A→B, B→A and top-level
set {A}, the walk terminates but returns [B, A] — the top-level name A
itself re-enters the output through the cycle, so the result is not {B}. -/
theorem parseTopLevelDependencies_cycle_returns_toplevel :
    parseTopLevelDependencies cycleMap ["A"] = some ["B", "A"] ∧
    parseTopLevelDependencies cycleMap ["A"] ≠ some ["B"] := by
  refine ⟨by decide, by decide⟩

/-! ### Claim C6: graph traversal — uniqueness and minimum depth -/

theorem lookup_none {β : Type} (k : String) (l : List (String × β))
    (h : List.lookup k l = none) : ∀ v, (k, v) ∉ l := by
  induction l with
  | nil => intro v hv; simp at hv
  | cons hd tl ih =>
      intro v hv
      rw [List.lookup] at h
      rcases hbeq : (k == hd.1) with _ | _
      · rw [hbeq] at h
        rcases List.mem_cons.mp hv with heq | hv
        · rw [← heq] at hbeq
          simp at hbeq
        · exact ih h v hv
      · rw [hbeq] at h
        exact Option.noConfusion h

theorem updateMin_id (oid : String) (depth : Nat) (n : GraphNode) :
    (updateMin oid depth n).id = n.id := by
  rw [updateMin]; split <;> rfl

theorem updateMin_index (oid : String) (depth : Nat) (n : GraphNode) :
    (updateMin oid depth n).index = n.index := by
  rw [updateMin]; split <;> rfl

theorem updateMin_fullPackage (oid : String) (depth : Nat) (n : GraphNode) :
    (updateMin oid depth n).fullPackage = n.fullPackage := by
  rw [updateMin]; split <;> rfl

theorem updateMin_minLevel_eq (oid : String) (depth : Nat) (n : GraphNode)
    (hid : n.id = oid) :
    (updateMin oid depth n).minLevel = Nat.min n.minLevel depth := by
  rw [updateMin]
  by_cases hlt : depth < n.minLevel
  · rw [if_pos ⟨hid, hlt⟩]
    exact (Nat.min_eq_right (Nat.le_of_lt hlt)).symm
  · rw [if_neg (fun hc => hlt hc.2)]
    exact (Nat.min_eq_left (Nat.le_of_not_lt hlt)).symm

theorem updateMin_skip (oid : String) (depth : Nat) (n : GraphNode)
    (hid : n.id ≠ oid) : updateMin oid depth n = n := by
  rw [updateMin, if_neg (fun hc => hid hc.1)]

theorem nodesWf_get_idx (st : TraversalState) (hwf : nodesWf st)
    (i : Nat) (h : i < st.nodes.length) :
    (st.nodes.get ⟨i, h⟩).index = i := by
  have h1 : (st.nodes.map GraphNode.index).get? i =
      (List.range st.nodes.length).get? i := by
    rw [hwf.2.2]
  rw [List.get?_map, List.get?_eq_get h, List.get?_eq_getElem?,
    List.getElem?_range h] at h1
  simpa using h1

theorem nodesWf_index_lt (st : TraversalState) (hwf : nodesWf st)
    (n : GraphNode) (hn : n ∈ st.nodes) : n.index < st.nodes.length := by
  obtain ⟨⟨i, hi⟩, hget⟩ := List.mem_iff_get.mp hn
  have hidx := nodesWf_get_idx st hwf i hi
  rw [hget] at hidx
  omega

theorem nodesWf_get_index (st : TraversalState) (hwf : nodesWf st)
    (n : GraphNode) (hn : n ∈ st.nodes) : st.nodes.get? n.index = some n := by
  obtain ⟨⟨i, hi⟩, hget⟩ := List.mem_iff_get.mp hn
  have hidx := nodesWf_get_idx st hwf i hi
  rw [hget] at hidx
  rw [hidx, List.get?_eq_get hi, hget]

theorem nodesWf_index_inj (st : TraversalState) (hwf : nodesWf st)
    (n1 n2 : GraphNode) (hn1 : n1 ∈ st.nodes) (hn2 : n2 ∈ st.nodes)
    (h : n1.index = n2.index) : n1 = n2 := by
  have g1 := nodesWf_get_index st hwf n1 hn1
  have g2 := nodesWf_get_index st hwf n2 hn2
  rw [h] at g1
  rw [g1] at g2
  exact Option.some_inj.mp g2

theorem findNode_self (nodes : List GraphNode)
    (hnd : (nodes.map GraphNode.id).Nodup) (n : GraphNode) (hn : n ∈ nodes) :
    findNode nodes n.id = some n := by
  induction nodes with
  | nil => simp at hn
  | cons hd tl ih =>
      rw [List.map_cons, List.nodup_cons] at hnd
      rcases List.mem_cons.mp hn with rfl | hn
      · rw [findNode, List.find?_cons_of_pos _ (by simp)]
      · by_cases hid : hd.id = n.id
        · exfalso
          apply hnd.1
          rw [hid]
          exact List.mem_map.mpr ⟨n, hn, rfl⟩
        · rw [findNode, List.find?_cons_of_neg _ (by simp [hid])]
          exact ih hnd.2 hn

theorem findNode_eq_some (nodes : List GraphNode) (oid : String)
    (n : GraphNode) (h : findNode nodes oid = some n) :
    n ∈ nodes ∧ n.id = oid := by
  refine ⟨List.mem_of_find?_eq_some h, ?_⟩
  have := List.find?_some h
  simpa using this

theorem findNode_isSome_of_mem (nodes : List GraphNode) (oid : String)
    (n : GraphNode) (hn : n ∈ nodes) (hid : n.id = oid) :
    (findNode nodes oid).isSome := by
  rw [findNode, List.find?_isSome]
  exact ⟨n, hn, by simp [hid]⟩

theorem findNode_none (nodes : List GraphNode) (oid : String)
    (h : ∀ n ∈ nodes, n.id ≠ oid) : findNode nodes oid = none := by
  rw [findNode, List.find?_eq_none]
  intro n hn
  simp [h n hn]

theorem reachDepths_append (l1 l2 : List GraphLink) (idx : Nat) :
    reachDepths (l1 ++ l2) idx = reachDepths l1 idx ++ reachDepths l2 idx := by
  rw [reachDepths, reachDepths, reachDepths, List.filter_append,
    List.map_append]

theorem reachDepths_single_eq (s t d idx : Nat) (h : t = idx) :
    reachDepths [⟨s, t, d⟩] idx = [d] := by
  simp [reachDepths, h]

theorem reachDepths_single_ne (s t d idx : Nat) (h : t ≠ idx) :
    reachDepths [⟨s, t, d⟩] idx = [] := by
  simp [reachDepths, h]

theorem reachDepths_out_of_range (links : List GraphLink) (b idx : Nat)
    (hb : ∀ l ∈ links, l.target < b) (hidx : b ≤ idx) :
    reachDepths links idx = [] := by
  rw [reachDepths]
  have : links.filter (fun l => l.target == idx) = [] := by
    rw [List.filter_eq_nil_iff]
    intro l hl
    have := hb l hl
    simp only [beq_iff_eq]
    omega
  rw [this, List.map_nil]

theorem MinTracks_refl (st : TraversalState) (hwf : nodesWf st) :
    MinTracks st st := by
  refine ⟨le_refl _, [], by simp, by simp, fun n hn => ⟨n, hn, rfl⟩, ?_⟩
  intro n' hn'
  rw [findNode_self st.nodes hwf.2.1 n' hn']
  exact ⟨rfl, rfl, rfl⟩

theorem MinTracks_trans (st1 st2 st3 : TraversalState)
    (h12 : MinTracks st1 st2) (h23 : MinTracks st2 st3) :
    MinTracks st1 st3 := by
  obtain ⟨hlen12, L1, hlinks12, htgt1, hpres12, hmain12⟩ := h12
  obtain ⟨hlen23, L2, hlinks23, htgt2, hpres23, hmain23⟩ := h23
  refine ⟨le_trans hlen12 hlen23, L1 ++ L2, ?_, ?_, ?_, ?_⟩
  · rw [hlinks23, hlinks12, List.append_assoc]
  · intro l hl
    rcases List.mem_append.mp hl with hl | hl
    · exact lt_of_lt_of_le (htgt1 l hl) hlen23
    · exact htgt2 l hl
  · intro n hn
    obtain ⟨n2, hn2, hid2⟩ := hpres12 n hn
    obtain ⟨n3, hn3, hid3⟩ := hpres23 n2 hn2
    exact ⟨n3, hn3, hid3.trans hid2⟩
  · intro n3 hn3
    have h23n := hmain23 n3 hn3
    cases hf2 : findNode st2.nodes n3.id with
    | some n2 =>
        rw [hf2] at h23n
        obtain ⟨hidx32, hfp32, hmin32⟩ := h23n
        obtain ⟨hn2mem, hn2id⟩ := findNode_eq_some _ _ _ hf2
        have h12n := hmain12 n2 hn2mem
        rw [hn2id] at h12n
        cases hf1 : findNode st1.nodes n3.id with
        | some n1 =>
            rw [hf1] at h12n
            obtain ⟨hidx21, hfp21, hmin21⟩ := h12n
            refine ⟨hidx32.trans hidx21, hfp32.trans hfp21, ?_⟩
            rw [reachDepths_append, List.foldl_append, ← hmin21, ← hidx21,
              ← hmin32]
        | none =>
            rw [hf1] at h12n
            obtain ⟨hge1, d, ds, hrd, hmin⟩ := h12n
            refine ⟨?_, d, ds ++ reachDepths L2 n2.index, ?_, ?_⟩
            · rw [hidx32]
              exact hge1
            · rw [hidx32, reachDepths_append, hrd, List.cons_append]
            · rw [hmin32, hmin, ← List.foldl_append]
    | none =>
        rw [hf2] at h23n
        obtain ⟨hge2, d, ds, hrd, hmin⟩ := h23n
        have hf1 : findNode st1.nodes n3.id = none := by
          apply findNode_none
          intro n1 hn1 hid
          obtain ⟨n2', hn2', hid2'⟩ := hpres12 n1 hn1
          have hsome := findNode_isSome_of_mem st2.nodes n3.id n2' hn2'
            (hid2'.trans hid)
          rw [hf2] at hsome
          simp at hsome
        rw [hf1]
        refine ⟨le_trans hlen12 hge2, d, ds, ?_, hmin⟩
        rw [reachDepths_append,
          reachDepths_out_of_range L1 st2.nodes.length n3.index htgt1 hge2,
          List.nil_append, hrd]

theorem nodes_id_inj (nodes : List GraphNode)
    (hnd : (nodes.map GraphNode.id).Nodup) (n1 n2 : GraphNode)
    (h1 : n1 ∈ nodes) (h2 : n2 ∈ nodes) (hid : n1.id = n2.id) : n1 = n2 :=
  List.inj_on_of_nodup_map hnd h1 h2 hid

theorem processChild_spec (st : TraversalState) (nl : List GraphNode)
    (depIndex depth : Nat) (fullPackage : String) (hwf : nodesWf st) :
    nodesWf (processChild st nl depIndex depth fullPackage).1 ∧
    MinTracks st (processChild st nl depIndex depth fullPackage).1 := by
  cases hlk : List.lookup (sanitizePackageID fullPackage) st.nodeMap with
  | none =>
      have heq : processChild st nl depIndex depth fullPackage =
          ({ nodes := st.nodes ++
              [⟨sanitizePackageID fullPackage, depth, st.nodes.length,
                fullPackage⟩]
             nodeMap := st.nodeMap ++
              [(sanitizePackageID fullPackage,
                ⟨sanitizePackageID fullPackage, depth, st.nodes.length,
                  fullPackage⟩)]
             links := st.links ++
              [⟨depIndex, st.nodes.length, depth⟩] },
           nl ++ [⟨sanitizePackageID fullPackage, depth, st.nodes.length,
              fullPackage⟩]) := by
        rw [processChild, hlk]
      rw [heq]
      have hnotin : ∀ n ∈ st.nodes, n.id ≠ sanitizePackageID fullPackage := by
        intro n hn hid
        apply lookup_none _ _ hlk n
        rw [hwf.1]
        rw [← hid]
        exact List.mem_map.mpr ⟨n, hn, rfl⟩
      constructor
      · refine ⟨?_, ?_, ?_⟩
        · rw [hwf.1, List.map_append]
          rfl
        · rw [List.map_append, List.nodup_append]
          refine ⟨hwf.2.1, by simp, ?_⟩
          intro x hx hy
          simp only [List.map_cons, List.map_nil, List.mem_singleton] at hy
          obtain ⟨n, hn, hxn⟩ := List.mem_map.mp hx
          exact hnotin n hn (by rw [hxn, hy])
        · rw [List.map_append, List.length_append, hwf.2.2]
          simp [List.range_succ]
      · refine ⟨by simp, [⟨depIndex, st.nodes.length, depth⟩], rfl, ?_, ?_, ?_⟩
        · intro l hl
          rw [List.mem_singleton.mp hl]
          simp
        · intro n hn
          exact ⟨n, List.mem_append_left _ hn, rfl⟩
        · intro n' hn'
          rcases List.mem_append.mp hn' with hn' | hn'
          · rw [findNode_self st.nodes hwf.2.1 n' hn']
            refine ⟨rfl, rfl, ?_⟩
            rw [reachDepths_single_ne _ _ _ _
              (by have := nodesWf_index_lt st hwf n' hn'; omega)]
            rfl
          · rw [List.mem_singleton.mp hn']
            rw [findNode_none st.nodes _ hnotin]
            exact ⟨le_refl _, depth, [], reachDepths_single_eq _ _ _ _ rfl, rfl⟩
  | some existing =>
      have heq : processChild st nl depIndex depth fullPackage =
          ({ nodes := st.nodes.map
              (updateMin (sanitizePackageID fullPackage) depth)
             nodeMap := st.nodeMap.map (fun kv => (kv.1,
              updateMin (sanitizePackageID fullPackage) depth kv.2))
             links := st.links ++ [⟨depIndex, existing.index, depth⟩] },
           nl) := by
        rw [processChild, hlk]
      rw [heq]
      have hexist : existing ∈ st.nodes ∧
          existing.id = sanitizePackageID fullPackage := by
        have hmem := lookup_mem _ _ _ hlk
        rw [hwf.1] at hmem
        obtain ⟨n, hn, hpair⟩ := List.mem_map.mp hmem
        have h1 : n.id = sanitizePackageID fullPackage :=
          congrArg Prod.fst hpair
        have h2 : n = existing := congrArg Prod.snd hpair
        rw [← h2]
        exact ⟨hn, h1⟩
      constructor
      · refine ⟨?_, ?_, ?_⟩
        · rw [hwf.1, List.map_map, List.map_map]
          apply List.map_congr_left
          intro n _
          simp [updateMin_id]
        · have hids : (st.nodes.map
              (updateMin (sanitizePackageID fullPackage) depth)).map
              GraphNode.id = st.nodes.map GraphNode.id := by
            rw [List.map_map]
            apply List.map_congr_left
            intro n _
            simp [updateMin_id]
          rw [hids]
          exact hwf.2.1
        · have hidx : (st.nodes.map
              (updateMin (sanitizePackageID fullPackage) depth)).map
              GraphNode.index = st.nodes.map GraphNode.index := by
            rw [List.map_map]
            apply List.map_congr_left
            intro n _
            simp [updateMin_index]
          rw [hidx, List.length_map]
          exact hwf.2.2
      · refine ⟨by simp, [⟨depIndex, existing.index, depth⟩], rfl, ?_, ?_, ?_⟩
        · intro l hl
          rw [List.mem_singleton.mp hl]
          have := nodesWf_index_lt st hwf existing hexist.1
          simpa using this
        · intro n hn
          exact ⟨updateMin (sanitizePackageID fullPackage) depth n,
            List.mem_map.mpr ⟨n, hn, rfl⟩, updateMin_id _ _ _⟩
        · intro n' hn'
          obtain ⟨n, hn, hupd⟩ := List.mem_map.mp hn'
          have hid : n'.id = n.id := by rw [← hupd]; exact updateMin_id _ _ _
          rw [hid, findNode_self st.nodes hwf.2.1 n hn]
          refine ⟨by rw [← hupd]; exact updateMin_index _ _ _,
            by rw [← hupd]; exact updateMin_fullPackage _ _ _, ?_⟩
          by_cases hcase : n.id = sanitizePackageID fullPackage
          · have hne : n = existing :=
              nodes_id_inj st.nodes hwf.2.1 n existing hn hexist.1
                (by rw [hcase, hexist.2])
            rw [reachDepths_single_eq _ _ _ _ (by rw [hne])]
            rw [← hupd, updateMin_minLevel_eq _ _ _ hcase]
            rfl
          · have hneidx : existing.index ≠ n.index := by
              intro hcontra
              exact hcase
                ((nodes_id_inj st.nodes hwf.2.1 n existing hn hexist.1
                  (by
                    have := nodesWf_index_inj st hwf existing n hexist.1 hn
                      hcontra
                    rw [this])) ▸ hexist.2)
            rw [reachDepths_single_ne _ _ _ _ hneidx]
            rw [← hupd, updateMin_skip _ _ _ hcase]
            rfl

theorem foldChildren_spec (childDepMap : List (String × String))
    (depIndex depth : Nat) :
    ∀ (st : TraversalState) (nl : List GraphNode), nodesWf st →
      nodesWf ((childDepMap.foldl
        (fun q kv => processChild q.1 q.2 depIndex depth kv.2) (st, nl)).1) ∧
      MinTracks st ((childDepMap.foldl
        (fun q kv => processChild q.1 q.2 depIndex depth kv.2) (st, nl)).1) := by
  induction childDepMap with
  | nil => intro st nl hwf; exact ⟨hwf, MinTracks_refl st hwf⟩
  | cons kv rest ih =>
      intro st nl hwf
      rw [List.foldl_cons]
      obtain ⟨hwf1, hmt1⟩ := processChild_spec st nl depIndex depth kv.2 hwf
      obtain ⟨hwf2, hmt2⟩ := ih (processChild st nl depIndex depth kv.2).1
        (processChild st nl depIndex depth kv.2).2 hwf1
      exact ⟨hwf2, MinTracks_trans _ _ _ hmt1 hmt2⟩

theorem foldDeps_spec
    (childPackageMap : List (String × List (String × String)))
    (depth : Nat) (packageDeps : List GraphNode) :
    ∀ (st : TraversalState) (nl : List GraphNode), nodesWf st →
      nodesWf ((packageDeps.foldl
        (processDep childPackageMap depth) (st, nl)).1) ∧
      MinTracks st ((packageDeps.foldl
        (processDep childPackageMap depth) (st, nl)).1) := by
  induction packageDeps with
  | nil => intro st nl hwf; exact ⟨hwf, MinTracks_refl st hwf⟩
  | cons dep rest ih =>
      intro st nl hwf
      rw [List.foldl_cons]
      cases hlk : List.lookup dep.fullPackage childPackageMap with
      | none =>
          have heq : processDep childPackageMap depth (st, nl) dep = (st, nl) := by
            rw [processDep, hlk]
          rw [heq]
          exact ih st nl hwf
      | some childDepMap =>
          have heq : processDep childPackageMap depth (st, nl) dep =
              childDepMap.foldl
                (fun q kv => processChild q.1 q.2 dep.index depth kv.2)
                (st, nl) := by
            rw [processDep, hlk]
          rw [heq]
          obtain ⟨hwf1, hmt1⟩ :=
            foldChildren_spec childDepMap dep.index depth st nl hwf
          obtain ⟨hwf2, hmt2⟩ := ih _ _ hwf1
          exact ⟨hwf2, MinTracks_trans _ _ _ hmt1 hmt2⟩

theorem s_DEPTH_TRAVERSAL_NODES_spec
    (childPackageMap : List (String × List (String × String))) :
    ∀ (fuel : Nat) (packageDeps : List GraphNode) (st : TraversalState)
      (depth : Nat), nodesWf st →
      nodesWf (s_DEPTH_TRAVERSAL_NODES childPackageMap fuel packageDeps
        st depth) ∧
      MinTracks st (s_DEPTH_TRAVERSAL_NODES childPackageMap fuel packageDeps
        st depth) := by
  intro fuel
  induction fuel with
  | zero => intro deps st depth hwf; exact ⟨hwf, MinTracks_refl st hwf⟩
  | succ fuel ih =>
      intro deps st depth hwf
      have heq : s_DEPTH_TRAVERSAL_NODES childPackageMap (fuel + 1) deps
          st depth =
          (if 0 <
            (deps.foldl (processDep childPackageMap depth) (st, [])).2.length
           then s_DEPTH_TRAVERSAL_NODES childPackageMap fuel
             (deps.foldl (processDep childPackageMap depth) (st, [])).2
             (deps.foldl (processDep childPackageMap depth) (st, [])).1
             (depth + 1)
           else (deps.foldl (processDep childPackageMap depth) (st, [])).1) :=
        rfl
      rw [heq]
      obtain ⟨hwf1, hmt1⟩ := foldDeps_spec childPackageMap depth deps st [] hwf
      by_cases hlen : 0 <
          (deps.foldl (processDep childPackageMap depth) (st, [])).2.length
      · rw [if_pos hlen]
        obtain ⟨hwf2, hmt2⟩ := ih _ _ (depth + 1) hwf1
        exact ⟨hwf2, MinTracks_trans _ _ _ hmt1 hmt2⟩
      · rw [if_neg hlen]
        exact ⟨hwf1, hmt1⟩

/-- Claim C6: throughout the dependency-graph traversal — whatever the
child-package map, recursion allowance, pending dependency wave, current
depth and well-formed starting state — every package identity appears at
most once among the nodes and at most once among the node-map keys, and
`MinTracks` holds: each surviving node's `minLevel` is the fold of `min`
over the depths of all discovery paths that reached it (so it is updated
downward when a later path arrives at a smaller depth), and each newly
discovered node's `minLevel` is the minimum depth over its discovery
paths. -/
theorem s_DEPTH_TRAVERSAL_NODES_unique_minLevel
    (childPackageMap : List (String × List (String × String))) (fuel : Nat)
    (packageDeps : List GraphNode) (st : TraversalState) (depth : Nat)
    (hwf : nodesWf st) :
    ((s_DEPTH_TRAVERSAL_NODES childPackageMap fuel packageDeps
      st depth).nodes.map GraphNode.id).Nodup ∧
    ((s_DEPTH_TRAVERSAL_NODES childPackageMap fuel packageDeps
      st depth).nodeMap.map Prod.fst).Nodup ∧
    MinTracks st (s_DEPTH_TRAVERSAL_NODES childPackageMap fuel packageDeps
      st depth) := by
  obtain ⟨hwf', hmt⟩ :=
    s_DEPTH_TRAVERSAL_NODES_spec childPackageMap fuel packageDeps st depth hwf
  refine ⟨hwf'.2.1, ?_, hmt⟩
  rw [hwf'.1, List.map_map]
  exact hwf'.2.1

/-- A one-node starting state used to witness claim C6 concretely. -/
def exNode : GraphNode := ⟨"P", 1, 0, "P"⟩

/-- The witness starting state: the node array, its mirror map, no links. -/
def exState : TraversalState := ⟨[exNode], [("P", exNode)], []⟩

/-- Witness for claim C6 at a concrete input: a state holding one node for
package P whose children map sends P to one child Q, traversed with fuel 4
at depth 2. -/
theorem s_DEPTH_TRAVERSAL_NODES_unique_minLevel_witness :
    nodesWf exState ∧
    (((s_DEPTH_TRAVERSAL_NODES [("P", [("q", "Q")])] 4 [exNode]
      exState 2).nodes.map GraphNode.id).Nodup ∧
    ((s_DEPTH_TRAVERSAL_NODES [("P", [("q", "Q")])] 4 [exNode]
      exState 2).nodeMap.map Prod.fst).Nodup ∧
    MinTracks exState (s_DEPTH_TRAVERSAL_NODES [("P", [("q", "Q")])] 4
      [exNode] exState 2)) :=
  ⟨⟨rfl, by decide, rfl⟩,
   s_DEPTH_TRAVERSAL_NODES_unique_minLevel [("P", [("q", "Q")])] 4 [exNode]
     exState 2 ⟨rfl, by decide, rfl⟩⟩
